import Mathlib

/-!
Verification of the content-compilation core of `src/build.js` of the MD-Blog
static site generator.  The JavaScript functions are shallowly embedded as
executable Lean definitions: strings are `String`/`List Char`, the regular
expressions of the source are unfolded into explicit structural recursions,
and the per-post records are plain structures.
-/

namespace MDBlog

/-- JavaScript word characters: the `\w` class `[A-Za-z0-9_]` used by the
anchor regex `/[^\w]+/g` at `src/build.js` line 48, stated on code points. -/
def isWordChar (c : Char) : Bool :=
  decide ((97 ≤ c.toNat ∧ c.toNat ≤ 122) ∨ (65 ≤ c.toNat ∧ c.toNat ≤ 90) ∨
    (48 ≤ c.toNat ∧ c.toNat ≤ 57) ∨ c.toNat = 95)

/-- JS `String.prototype.toLowerCase` on the ASCII range, which is all the anchor
pipeline distinguishes (non-ASCII characters are outside `\w` and are replaced
by `-` whether lowercased or not).  Core `Char.toLower` maps exactly the code
points 65–90 to 97–122 and fixes everything else. -/
def jsToLower (c : Char) : Char := c.toLower

/-- The global replace `/[^\w]+/g → "-"` of `src/build.js` line 48 as a single
left-to-right scan.  The flag records whether the scanner is inside a run of
non-word characters (so that a run emits only one `-`). -/
def replRuns : Bool → List Char → List Char
  | _, [] => []
  | inRun, c :: cs =>
    if isWordChar c then c :: replRuns false cs
    else if inRun then replRuns true cs
    else '-' :: replRuns true cs

/-- The anchor computation of `renderer.heading` (`src/build.js` line 48):
lowercase the source text, then replace every `/[^\w]+/` match with `-`. -/
def anchorOf (s : String) : String :=
  String.mk (replRuns false (s.data.map jsToLower))

/-- Spec-side description of the anchor body: every maximal run of characters
outside `[A-Za-z0-9_]` is replaced by a single `-`, stated via
`takeWhile`/`dropWhile` decomposition into maximal runs (compare §4.2 of the
specification). -/
def specAnchorRuns : List Char → List Char
  | [] => []
  | c :: cs =>
    if isWordChar c then
      c :: (cs.takeWhile isWordChar ++ specAnchorRuns (cs.dropWhile isWordChar))
    else
      '-' :: specAnchorRuns (cs.dropWhile fun d => !isWordChar d)
termination_by cs => cs.length
decreasing_by
  all_goals
    exact Nat.lt_succ_of_le (List.Sublist.length_le (List.dropWhile_sublist _))

/-- Spec-side anchor: lowercase, then replace each maximal non-word run by a
single hyphen. -/
def specAnchor (s : String) : String :=
  String.mk (specAnchorRuns (s.data.map jsToLower))

/-- A heading callback argument as the markdown library passes it:
rendered text, depth (the heading level), and the raw heading source. -/
structure HeadingArgs where
  text : String
  depth : Nat
  raw : String
deriving DecidableEq, Repr

/-- The assignment `headerText = obj.text || ''` (`src/build.js` line 39). -/
def headerTextOf (a : HeadingArgs) : String := a.text

/-- The assignment `headerLevel = obj.depth || obj.level || 1` (`src/build.js` line 40):
a zero (falsy) depth falls back to 1. -/
def headerLevelOf (a : HeadingArgs) : Nat := if a.depth = 0 then 1 else a.depth

/-- The assignment `headerRaw = obj.raw || headerText` (`src/build.js` line 41). -/
def headerRawOf (a : HeadingArgs) : String := if a.raw = "" then a.text else a.raw

/-- The anchor source `(headerRaw || headerText || '')` (`src/build.js` line 48). -/
def anchorSourceOf (a : HeadingArgs) : String :=
  if headerRawOf a = "" then (if headerTextOf a = "" then "" else headerTextOf a)
  else headerRawOf a

/-- One table-of-contents entry (`toc.push` at `src/build.js` line 50). -/
structure TocEntry where
  anchor : String
  text : String
  level : Nat
deriving DecidableEq, Repr

/-- The heading interceptor (`src/build.js` lines 34–53): the emitted HTML and
the TOC entry pushed (none when the level exceeds 3). -/
def renderHeading (a : HeadingArgs) : String × Option TocEntry :=
  let anchor := anchorOf (anchorSourceOf a)
  let lvl := headerLevelOf a
  ("<h" ++ toString lvl ++ " id=\"" ++ anchor ++ "\">" ++ headerTextOf a ++
      "</h" ++ toString lvl ++ ">",
   if lvl ≤ 3 then some ⟨anchor, headerTextOf a, lvl⟩ else none)

/-- The TOC accumulated over a document's headings in document order,
mirroring the `toc.push` side effect of `renderer.heading` folded over the
headings the markdown parser visits. -/
def buildToc (hs : List HeadingArgs) : List TocEntry :=
  hs.foldl
    (fun acc a =>
      match (renderHeading a).2 with
      | some e => acc ++ [e]
      | none => acc) []

/-- The TOC entry a heading would contribute. -/
def tocEntryOf (a : HeadingArgs) : TocEntry :=
  ⟨anchorOf (anchorSourceOf a), headerTextOf a, headerLevelOf a⟩

/-- Does `hay` begin with `needle`? -/
def startsWithL : List Char → List Char → Bool
  | _, [] => true
  | [], _ :: _ => false
  | c :: cs, d :: ds => c == d && startsWithL cs ds

/-- Does `needle` occur as a contiguous segment of `hay`? -/
def containsSeg : List Char → List Char → Bool
  | [], needle => needle.isEmpty
  | hay@(_ :: t), needle => startsWithL hay needle || containsSeg t needle

/-- Substring test on strings. -/
def containsSub (s sub : String) : Bool := containsSeg s.data sub.data

/-- The five admonition tokens, in the order of the alternation
`(NOTE|TIP|IMPORTANT|WARNING|CAUTION)` of the detection regex at
`src/build.js` line 60 — which carries no `i` flag. -/
def alertTokens : List String := ["NOTE", "TIP", "IMPORTANT", "WARNING", "CAUTION"]

/-- Can `\s*(.*?)<\/p>` match a front part of `cs`?  The prefix before the
first viable `</p>` must be a whitespace run (matched by `\s*`, which may
span newlines) followed by newline-free text (matched by `.*?`, since `.`
does not match line terminators).  `Char.isWhitespace` models `\s` on the
ASCII range. -/
def hasAlertTail (cs : List Char) : Bool :=
  (List.range (cs.length + 1)).any fun i =>
    startsWithL (cs.drop i) "</p>".data &&
      (((cs.take i).dropWhile Char.isWhitespace).all fun c => !(c == '\n') && !(c == '\r'))

/-- The test one alternation branch of the detection regex performs:
`^<p>\[!TOKEN\]\s*(.*?)<\/p>[\s\S]*` (the final `[\s\S]*` always matches). -/
def tokenTest (t : String) (cs : List Char) : Option String :=
  let pat := ("<p>[!" ++ t ++ "]").data
  if startsWithL cs pat && hasAlertTail (cs.drop pat.length) then some t else none

/-- The detection test `contentStr.match(/^<p>\[!(NOTE|TIP|IMPORTANT|WARNING|CAUTION)\]\s*(.*?)<\/p>([\s\S]*)/)`
(`src/build.js` line 60), returning the first capture group (the token), the
only group the source uses.  The alternation is tried left to right. -/
def alertMatchL (cs : List Char) : Option String :=
  match tokenTest "NOTE" cs with
  | some t => some t
  | none =>
    match tokenTest "TIP" cs with
    | some t => some t
    | none =>
      match tokenTest "IMPORTANT" cs with
      | some t => some t
      | none =>
        match tokenTest "WARNING" cs with
        | some t => some t
        | none => tokenTest "CAUTION" cs

/-- String-level wrapper for the detection regex. -/
def alertMatch (content : String) : Option String := alertMatchL content.data

/-- The scan of the lazy group in the strip regex
`/^<p>\[!.*?\]\s*<\/p>/` (`src/build.js` line 66), applied to the characters
after the literal `<p>[!`: find the first `]` that is followed by a
whitespace run and then literally `</p>` (the run is maximal, as `</p>`
starts with a non-whitespace character); the lazy `.*?` may grow over
anything except a line terminator.  Returns the characters after the matched
span, or `none` when the regex does not match. -/
def stripScan : List Char → Option (List Char)
  | [] => none
  | c :: cs =>
    if c == '\n' || c == '\r' then none
    else if c == ']' then
      let r := cs.dropWhile Char.isWhitespace
      if startsWithL r "</p>".data then some (r.drop 4)
      else stripScan cs
    else stripScan cs

/-- The strip `contentStr.replace(/^<p>\[!.*?\]\s*<\/p>/, '')` (`src/build.js` line 66):
remove the first-paragraph marker span when the anchored regex matches,
otherwise return the content unchanged. -/
def stripFirstAlertP (content : String) : String :=
  if startsWithL content.data "<p>[!".data then
    match stripScan (content.data.drop 5) with
    | some rest => String.mk rest
    | none => content
  else content

/-- Lowercasing a whole string, `alertMatch[1].toLowerCase()` at
`src/build.js` line 63. -/
def jsToLowerStr (s : String) : String := String.mk (s.data.map jsToLower)

/-- The `icons` lookup of `src/build.js` lines 68–74 with the `|| icons.note`
fallback of line 86. -/
def alertIconSvg (t : String) : String :=
  if t = "tip" then
    "<svg class=\"w-6 h-6\" fill=\"none\" viewBox=\"0 0 24 24\" stroke=\"currentColor\"><path stroke-linecap=\"round\" stroke-linejoin=\"round\" stroke-width=\"2\" d=\"M9.663 17h4.673M12 3v1m6.364 1.636l-.707.707M21 12h-1M4 12H3m3.343-5.657l-.707-.707m2.828 9.9a5 5 0 117.072 0l-.548.547A3.374 3.374 0 0014 18.469V19a2 2 0 11-4 0v-.531c0-.895-.356-1.754-.988-2.386l-.548-.547z\" /></svg>"
  else if t = "important" then
    "<svg class=\"w-6 h-6\" fill=\"none\" viewBox=\"0 0 24 24\" stroke=\"currentColor\"><path stroke-linecap=\"round\" stroke-linejoin=\"round\" stroke-width=\"2\" d=\"M12 8v4m0 4h.01M21 12a9 9 0 11-18 0 9 9 0 0118 0z\" /></svg>"
  else if t = "warning" then
    "<svg class=\"w-6 h-6\" fill=\"none\" viewBox=\"0 0 24 24\" stroke=\"currentColor\"><path stroke-linecap=\"round\" stroke-linejoin=\"round\" stroke-width=\"2\" d=\"M12 9v2m0 4h.01m-6.938 4h13.856c1.54 0 2.502-1.667 1.732-3L13.732 4c-.77-1.333-2.694-1.333-3.464 0L3.34 16c-.77 1.333.192 3 1.732 3z\" /></svg>"
  else if t = "caution" then
    "<svg class=\"w-6 h-6\" fill=\"none\" viewBox=\"0 0 24 24\" stroke=\"currentColor\"><path stroke-linecap=\"round\" stroke-linejoin=\"round\" stroke-width=\"2\" d=\"M12 8v4m0 4h.01M21 12a9 9 0 11-18 0 9 9 0 0118 0z\" /></svg>"
  else
    "<svg class=\"w-6 h-6\" fill=\"none\" viewBox=\"0 0 24 24\" stroke=\"currentColor\"><path stroke-linecap=\"round\" stroke-linejoin=\"round\" stroke-width=\"2\" d=\"M13 16h-1v-4h-1m1-4h.01M21 12a9 9 0 11-18 0 9 9 0 0118 0z\" /></svg>"

/-- The `colors` lookup of `src/build.js` lines 76–82 with the
`|| colors.note` fallback of line 85. -/
def alertColorCls (t : String) : String :=
  if t = "tip" then "border-green-500 bg-green-500/10 text-green-200"
  else if t = "important" then "border-purple-500 bg-purple-500/10 text-purple-200"
  else if t = "warning" then "border-yellow-500 bg-yellow-500/10 text-yellow-200"
  else if t = "caution" then "border-red-500 bg-red-500/10 text-red-200"
  else "border-blue-500 bg-blue-500/10 text-blue-200"

/-- The blockquote interceptor (`src/build.js` lines 56–96): on a detected
GitHub-style alert, emit the styled callout container carrying the icon, the
color class, the original-case token as bolded title, and the remaining
content after the strip; otherwise emit a plain blockquote. -/
def renderBlockquote (contentStr : String) : String :=
  match alertMatch contentStr with
  | some token =>
    let type := jsToLowerStr token
    let title := token
    let restOfContent := stripFirstAlertP contentStr
    "\n                <div class=\"my-8 p-4 border-l-4 rounded-r-lg flex gap-4 " ++
      alertColorCls type ++
      "\">\n                    <div class=\"shrink-0 mt-1\">" ++
      alertIconSvg type ++
      "</div>\n                    <div class=\"prose prose-invert prose-sm max-w-none\">\n                        <strong class=\"block mb-1 capitalize text-white font-bold\">" ++
      title ++
      "</strong>\n                        " ++
      restOfContent ++
      "\n                    </div>\n                </div>\n            "
  | none => "<blockquote>" ++ contentStr ++ "</blockquote>"

/-- JS `String.prototype.trim`, used by `getReadingTime`: whitespace stripped
from both ends. -/
def trimL (cs : List Char) : List Char :=
  ((cs.dropWhile Char.isWhitespace).reverse.dropWhile Char.isWhitespace).reverse

/-- The field structure of JS `split(/\s+/)`: the empty string yields one
empty field, a maximal whitespace run is one separator, and a leading or
trailing separator run contributes an empty boundary field.  The head of the
result is the field currently being read. -/
def jsSplitWs : List Char → List (List Char)
  | [] => [[]]
  | c :: cs =>
    if c.isWhitespace then
      match cs with
      | [] => [[], []]
      | d :: _ => if d.isWhitespace then jsSplitWs cs else [] :: jsSplitWs cs
    else
      match jsSplitWs cs with
      | [] => [[c]]
      | w :: ws => (c :: w) :: ws

/-- The estimator `getReadingTime` (`src/build.js` lines 22–26):
`Math.ceil(content.trim().split(/\s+/).length / 200)`; `Math.ceil` of a
nonnegative quotient by 200 is `(words + 199) / 200` in natural division. -/
def getReadingTime (content : String) : Nat :=
  let words := (jsSplitWs (trimL content.data)).length
  (words + 199) / 200

/-- Spec-side word count: the number of maximal whitespace-free runs (the
whitespace-separated words) of the text. -/
def wordCount : List Char → Nat
  | [] => 0
  | c :: cs =>
    if c.isWhitespace then wordCount cs
    else 1 + wordCount (cs.dropWhile fun d => !d.isWhitespace)
termination_by cs => cs.length
decreasing_by
  all_goals
    first
      | exact Nat.lt_succ_of_le (List.Sublist.length_le (List.dropWhile_sublist _))
      | simp

/-- The slug computation `file.replace('.md', '')` (`src/build.js` line 124): a JS string-pattern
`replace` removes only the first occurrence of `.md`. -/
def replaceFirstL : List Char → List Char → List Char
  | [], _ => []
  | c :: t, pat =>
    if startsWithL (c :: t) pat then (c :: t).drop pat.length
    else c :: replaceFirstL t pat

/-- The slug derivation `const slug = file.replace('.md', '')`. -/
def slugOf (file : String) : String :=
  String.mk (replaceFirstL file.data (".md" : String).data)

/-- A compiled Post record (`src/build.js` lines 127–136): the metadata
fields used downstream plus the derived fields; `date` is the parsed
timestamp, used only for ordering. -/
structure Post where
  slug : String
  title : String
  description : String
  author : String
  date : Int
  tags : List String
  heroImage : Option String
  htmlContent : String
  toc : List TocEntry
  readingTime : Nat
deriving DecidableEq, Repr

/-- One record of the `search.json` array (`src/build.js` lines 142–148). -/
structure SearchRecord where
  title : String
  slug : String
  description : String
  tags : List String
  content : String
deriving DecidableEq, Repr

/-- The global replace of `/<[^>]*>?/gm` with a single space
(`src/build.js` line 147): at a `<`, the match consumes every following
non-`>` character plus the closing `>` when present and becomes one space;
scanning resumes after the match.  The flag records being inside a match. -/
def stripTagsM : Bool → List Char → List Char
  | _, [] => []
  | false, c :: cs =>
    if c == '<' then ' ' :: stripTagsM true cs else c :: stripTagsM false cs
  | true, c :: cs =>
    if c == '>' then stripTagsM false cs else stripTagsM true cs

/-- The replace `html.replace(/<[^>]*>?/gm, ' ')`. -/
def stripTags (cs : List Char) : List Char := stripTagsM false cs

/-- The search-index entry for one post (`src/build.js` lines 142–148):
`content` is the rendered html with each tag span replaced by a space, cut by
`.substring(0, 300)`. -/
def searchIndexEntry (p : Post) : SearchRecord :=
  { title := p.title, slug := p.slug, description := p.description,
    tags := p.tags,
    content := String.mk ((stripTags p.htmlContent.data).take 300) }

/-- The map `posts.map(...)` producing the search index in corpus order. -/
def searchIndex (posts : List Post) : List SearchRecord :=
  posts.map searchIndexEntry

/-- The claim's version of tag stripping: every `<...>` span deleted
outright, contributing no characters at all. -/
def deleteTagsM : Bool → List Char → List Char
  | _, [] => []
  | false, c :: cs =>
    if c == '<' then deleteTagsM true cs else c :: deleteTagsM false cs
  | true, c :: cs =>
    if c == '>' then deleteTagsM false cs else deleteTagsM true cs

/-- Deletion-style stripping, per the claim's wording. -/
def deleteTags (cs : List Char) : List Char := deleteTagsM false cs

/-- The count `p.tags.filter(tag => post.tags.includes(tag)).length`
(`src/build.js` line 161): how many of the other post's tags occur among the
target's tags. -/
def matchCount (post p : Post) : Nat :=
  (p.tags.filter fun tag => post.tags.contains tag).length

/-- The spec's counting (§4.4): the number of the target's tags found in the
other post's tag set. -/
def matchCountSpec (post p : Post) : Nat :=
  (post.tags.filter fun tag => p.tags.contains tag).length

/-- Stable descending insertion: `x` moves past elements with strictly more
matches and lands before the first element with at most as many, so ties
keep insertion order.  Folding it over the list from the right models the
ES2019-stable `Array.prototype.sort` with comparator
`(a, b) => b.matches - a.matches` (`src/build.js` line 164). -/
def insertDesc (x : Post × Nat) : List (Post × Nat) → List (Post × Nat)
  | [] => [x]
  | y :: ys => if x.2 < y.2 then y :: insertDesc x ys else x :: y :: ys

/-- Stable sort, descending in the match count. -/
def sortDesc (l : List (Post × Nat)) : List (Post × Nat) :=
  l.foldr insertDesc []

/-- The candidate list of the related-posts pipeline (`src/build.js` lines
157–163): the other posts in corpus order, paired with their match count,
keeping only positive counts. -/
def relatedCandidates (post : Post) (posts : List Post) : List (Post × Nat) :=
  ((posts.filter fun p => decide (p.slug ≠ post.slug)).map
    fun p => (p, matchCount post p)).filter fun x => decide (0 < x.2)

/-- The related-posts computation (`src/build.js` lines 157–166): sort the
candidates by descending matches (stable), take the first 3, project the
posts back out. -/
def related (post : Post) (posts : List Post) : List Post :=
  ((sortDesc (relatedCandidates post posts)).take 3).map Prod.fst

/-- The same candidate list with the spec's match counting. -/
def relatedCandidatesSpec (post : Post) (posts : List Post) : List (Post × Nat) :=
  ((posts.filter fun p => decide (p.slug ≠ post.slug)).map
    fun p => (p, matchCountSpec post p)).filter fun x => decide (0 < x.2)

/-- The related-posts pipeline as §4.4 words it. -/
def relatedSpec (post : Post) (posts : List Post) : List Post :=
  ((sortDesc (relatedCandidatesSpec post posts)).take 3).map Prod.fst

/-- The corpus invariant established by `posts.sort((a, b) => b.date - a.date)`
(`src/build.js` line 139): dates are descending. -/
def sortedByDateDesc : List Post → Bool
  | [] => true
  | [_] => true
  | a :: b :: t => decide (b.date ≤ a.date) && sortedByDateDesc (b :: t)

/-- The spec's ranking example: post A, most recent, tags `{x, y}`. -/
def postA : Post := ⟨"a", "A", "", "", 3, ["x", "y"], none, "", [], 1⟩

/-- The spec's ranking example: post B, tags `{y, z}`. -/
def postB : Post := ⟨"b", "B", "", "", 2, ["y", "z"], none, "", [], 1⟩

/-- The spec's ranking example: post C, oldest, tags `{z}`. -/
def postC : Post := ⟨"c", "C", "", "", 1, ["z"], none, "", [], 1⟩

/-- Splitting a text into its lines at `\n`. -/
def splitLines : List Char → List (List Char)
  | [] => [[]]
  | c :: cs =>
    if c = '\n' then [] :: splitLines cs
    else
      match splitLines cs with
      | [] => [[c]]
      | l :: ls => (c :: l) :: ls

/-- Rejoining lines with `\n`. -/
def joinLines (ls : List (List Char)) : String :=
  String.mk (List.intercalate ('\n' :: []) ls)

/-- A frontmatter extraction outcome: metadata pairs and the body text. -/
structure FMatter where
  data : List (String × String)
  content : String
deriving DecidableEq, Repr

/-- One `key: value` header line; a line without `:` is not a mapping
entry. -/
def parseHeaderLine (l : List Char) : Option (String × String) :=
  if l.contains ':' then
    some (String.mk (l.takeWhile fun c => decide (c ≠ ':')),
      String.mk ((l.dropWhile fun c => decide (c ≠ ':')).drop 1))
  else none

/-- The closing/opening delimiter line `---`. -/
def fmDelim : List Char := '-' :: '-' :: '-' :: []

/-- Modelled from the contract of the `gray-matter` library called at
`src/build.js` line 120 (the library is an external dependency, not part of
this repository): input that does not open with the `---` delimiter is
returned unparsed — EMPTY data, content unchanged, and no error; input that
opens with `---` has its header lines read up to the closing `---`, and a
malformed header line (one that is neither empty nor a `key: value` mapping
entry) makes the YAML engine throw.  The unclosed-delimiter branch is not
relied on by any theorem below. -/
def matterModel (raw : String) : Except String FMatter :=
  match splitLines raw.data with
  | [] => Except.ok ⟨[], raw⟩
  | first :: rest =>
    if first = fmDelim then
      let hdr := rest.takeWhile fun l => decide (l ≠ fmDelim)
      match rest.dropWhile fun l => decide (l ≠ fmDelim) with
      | [] => Except.error "unclosed front-matter block"
      | _ :: tail =>
        if hdr.all fun l => l.isEmpty || l.contains ':' then
          Except.ok ⟨hdr.filterMap parseHeaderLine, joinLines tail⟩
        else Except.error "YAMLException: can not read a block mapping entry"
    else Except.ok ⟨[], raw⟩

/-- The per-document loop of `build` (`src/build.js` lines 118–137) at the
granularity the error-handling claim needs: every file is fed through the
frontmatter extractor and compiled into a record; an exception thrown for
one document aborts the remaining documents. -/
def buildDocs : List (String × String) → Except String (List (String × FMatter))
  | [] => Except.ok []
  | (file, raw) :: rest =>
    match matterModel raw with
    | Except.error e => Except.error e
    | Except.ok fm =>
      match buildDocs rest with
      | Except.error e => Except.error e
      | Except.ok others => Except.ok ((slugOf file, fm) :: others)

/-- The tail call `build().catch(console.error)` (`src/build.js` line 336): a rejected
build promise is caught and only logged, so the process completes with exit
status 0 whether the build succeeded or threw. -/
def runBuild (docs : List (String × String)) : Nat :=
  match buildDocs docs with
  | Except.ok _ => 0
  | Except.error _ => 0

theorem replRuns_true_eq (cs : List Char) :
    replRuns true cs = replRuns false (cs.dropWhile fun d => !isWordChar d) := by
  induction cs with
  | nil => rfl
  | cons c cs ih =>
    cases h : isWordChar c with
    | true => simp [replRuns, h, List.dropWhile_cons]
    | false => simp [replRuns, h, List.dropWhile_cons, ih]

theorem replRuns_false_word (cs : List Char) :
    replRuns false cs =
      cs.takeWhile isWordChar ++ replRuns false (cs.dropWhile isWordChar) := by
  induction cs with
  | nil => rfl
  | cons d ds ih =>
    cases h : isWordChar d with
    | true => simp [replRuns, h, List.takeWhile_cons, List.dropWhile_cons, ih]
    | false => simp [replRuns, h, List.takeWhile_cons, List.dropWhile_cons]

theorem replRuns_eq_specAnchorRuns_aux :
    ∀ (n : Nat) (cs : List Char), cs.length ≤ n →
      replRuns false cs = specAnchorRuns cs := by
  intro n
  induction n with
  | zero =>
    intro cs h
    have hnil : cs = [] := List.eq_nil_of_length_eq_zero (Nat.le_zero.mp h)
    subst hnil; simp [replRuns, specAnchorRuns]
  | succ n ih =>
    intro cs h
    match cs with
    | [] => simp [replRuns, specAnchorRuns]
    | c :: cs' =>
      have hlen : cs'.length ≤ n := by
        simp only [List.length_cons] at h; omega
      cases hw : isWordChar c with
      | true =>
        have hdrop : (cs'.dropWhile isWordChar).length ≤ n :=
          le_trans (List.Sublist.length_le (List.dropWhile_sublist _)) hlen
        rw [specAnchorRuns]
        simp only [hw, if_pos]
        rw [show replRuns false (c :: cs') = c :: replRuns false cs' by
              simp [replRuns, hw],
            replRuns_false_word cs', ih _ hdrop]
      | false =>
        have hdrop : ((cs'.dropWhile fun d => !isWordChar d).length) ≤ n :=
          le_trans (List.Sublist.length_le (List.dropWhile_sublist _)) hlen
        rw [specAnchorRuns]
        simp only [hw, Bool.false_eq_true, if_false]
        rw [show replRuns false (c :: cs') = '-' :: replRuns true cs' by
              simp [replRuns, hw],
            replRuns_true_eq cs', ih _ hdrop]

theorem replRuns_eq_specAnchorRuns (cs : List Char) :
    replRuns false cs = specAnchorRuns cs :=
  replRuns_eq_specAnchorRuns_aux cs.length cs le_rfl

theorem anchorOf_eq_specAnchor (s : String) : anchorOf s = specAnchor s :=
  congrArg String.mk (replRuns_eq_specAnchorRuns _)

theorem anchorSourceOf_of_raw_eq_text (a : HeadingArgs) (h : a.raw = a.text) :
    anchorSourceOf a = a.text := by
  unfold anchorSourceOf headerRawOf headerTextOf
  rw [h]
  by_cases ht : a.text = "" <;> simp [ht]

/-- C7: for a heading of level `L` whose anchor source text is `T`, the anchor
is `lowercase(T)` with every maximal run of characters outside `[A-Za-z0-9_]`
replaced by a single `-` and no trailing-hyphen cleanup; in particular
`anchor "Hello World!" = "hello-world-"`, and the heading is emitted as
`<h{L} id="{anchor}">{T}</h{L}>`. -/
theorem c7_anchor_generation :
    (∀ s : String, anchorOf s = specAnchor s) ∧
    anchorOf "Hello World!" = "hello-world-" ∧
    (∀ a : HeadingArgs, a.raw = a.text →
      (renderHeading a).1 =
        "<h" ++ toString (headerLevelOf a) ++ " id=\"" ++ specAnchor a.text ++
          "\">" ++ a.text ++ "</h" ++ toString (headerLevelOf a) ++ ">") := by
  refine ⟨anchorOf_eq_specAnchor, by decide, ?_⟩
  intro a h
  show "<h" ++ toString (headerLevelOf a) ++ " id=\"" ++ anchorOf (anchorSourceOf a) ++
      "\">" ++ headerTextOf a ++ "</h" ++ toString (headerLevelOf a) ++ ">" = _
  rw [anchorSourceOf_of_raw_eq_text a h, anchorOf_eq_specAnchor]
  rfl

/-- Witness for C7 at the spec's own example heading. -/
theorem c7_anchor_generation_witness :
    (HeadingArgs.mk "Hello World!" 2 "Hello World!").raw =
        (HeadingArgs.mk "Hello World!" 2 "Hello World!").text ∧
      (renderHeading ⟨"Hello World!", 2, "Hello World!"⟩).1 =
        "<h" ++ toString (headerLevelOf ⟨"Hello World!", 2, "Hello World!"⟩) ++
          " id=\"" ++ specAnchor "Hello World!" ++ "\">" ++ "Hello World!" ++
          "</h" ++ toString (headerLevelOf ⟨"Hello World!", 2, "Hello World!"⟩) ++ ">" :=
  ⟨rfl, c7_anchor_generation.2.2 ⟨"Hello World!", 2, "Hello World!"⟩ rfl⟩

theorem buildToc_go (hs : List HeadingArgs) (acc : List TocEntry) :
    hs.foldl
      (fun acc a =>
        match (renderHeading a).2 with
        | some e => acc ++ [e]
        | none => acc) acc
      = acc ++ (hs.filter fun a => decide (headerLevelOf a ≤ 3)).map tocEntryOf := by
  induction hs generalizing acc with
  | nil => simp
  | cons a hs ih =>
    have h2 : (renderHeading a).2 =
        if headerLevelOf a ≤ 3 then some (tocEntryOf a) else none := rfl
    simp only [List.foldl_cons, List.filter_cons, h2]
    by_cases h : headerLevelOf a ≤ 3
    · simp [h, ih, List.append_assoc]
    · simp [h, ih]

/-- C8: the table of contents consists exactly of the headings of level at
most 3, in document order, each entry carrying that heading's anchor, text and
level; a document with headings at levels 1 through 6 yields entries only for
levels 1–3. -/
theorem c8_toc_level_filter :
    (∀ hs : List HeadingArgs,
      buildToc hs = (hs.filter fun a => decide (headerLevelOf a ≤ 3)).map tocEntryOf) ∧
    buildToc [⟨"A", 1, "A"⟩, ⟨"B", 2, "B"⟩, ⟨"C", 3, "C"⟩,
        ⟨"D", 4, "D"⟩, ⟨"E", 5, "E"⟩, ⟨"F", 6, "F"⟩] =
      [⟨"a", "A", 1⟩, ⟨"b", "B", 2⟩, ⟨"c", "C", 3⟩] :=
  ⟨fun hs => buildToc_go hs [], by decide⟩

theorem toLower_word_allowed (x : Char) (h : isWordChar (jsToLower x) = true) :
    jsToLower x = '-' ∨ jsToLower x = '_' ∨
      (97 ≤ (jsToLower x).toNat ∧ (jsToLower x).toNat ≤ 122) ∨
      (48 ≤ (jsToLower x).toNat ∧ (jsToLower x).toNat ≤ 57) := by
  unfold jsToLower Char.toLower at h ⊢
  by_cases hc : x.toNat ≥ 65 ∧ x.toNat ≤ 90
  · rw [if_pos hc] at h ⊢
    obtain ⟨k, hk, hk1, hk2⟩ :
        ∃ k, x.toNat + 32 = k ∧ 97 ≤ k ∧ k ≤ 122 := ⟨_, rfl, by omega, by omega⟩
    rw [hk]
    interval_cases k <;> decide
  · rw [if_neg hc] at h ⊢
    simp only [isWordChar, decide_eq_true_eq] at h
    rcases h with h | h | h | h
    · exact Or.inr (Or.inr (Or.inl h))
    · exact absurd h hc
    · exact Or.inr (Or.inr (Or.inr h))
    · refine Or.inr (Or.inl ?_)
      rw [← Char.ofNat_toNat x, h]

theorem anchor_chars_core :
    ∀ (xs : List Char) (flag : Bool), ∀ c ∈ replRuns flag (xs.map jsToLower),
      c = '-' ∨ c = '_' ∨ (97 ≤ c.toNat ∧ c.toNat ≤ 122) ∨
        (48 ≤ c.toNat ∧ c.toNat ≤ 57) := by
  intro xs
  induction xs with
  | nil => intro flag c hc; simp [replRuns] at hc
  | cons x xs ih =>
    intro flag c hc
    simp only [List.map_cons] at hc
    cases hw : isWordChar (jsToLower x) with
    | true =>
      rw [show replRuns flag (jsToLower x :: xs.map jsToLower) =
            jsToLower x :: replRuns false (xs.map jsToLower) by
          cases flag <;> simp [replRuns, hw]] at hc
      rcases List.mem_cons.mp hc with hceq | hmem
      · exact hceq ▸ toLower_word_allowed x hw
      · exact ih false c hmem
    | false =>
      cases flag with
      | true =>
        rw [show replRuns true (jsToLower x :: xs.map jsToLower) =
              replRuns true (xs.map jsToLower) by simp [replRuns, hw]] at hc
        exact ih true c hc
      | false =>
        rw [show replRuns false (jsToLower x :: xs.map jsToLower) =
              '-' :: replRuns true (xs.map jsToLower) by simp [replRuns, hw]] at hc
        rcases List.mem_cons.mp hc with hceq | hmem
        · exact Or.inl hceq
        · exact ih true c hmem

/-- C10: every character of every generated anchor is a lowercase ASCII letter
(code points 97–122), a digit (48–57), an underscore, or a hyphen — never an
uppercase letter, whitespace, or anything else, for every source text
including the empty string. -/
theorem c10_anchor_charset (s : String) :
    ∀ c ∈ (anchorOf s).data,
      c = '-' ∨ c = '_' ∨ (97 ≤ c.toNat ∧ c.toNat ≤ 122) ∨
        (48 ≤ c.toNat ∧ c.toNat ≤ 57) := by
  intro c hc
  exact anchor_chars_core s.data false c hc

/-- Witness for C10: a concrete anchor character obtained from a heading with
an uppercase letter, a space and punctuation. -/
theorem c10_anchor_charset_witness :
    'a' ∈ (anchorOf "A b!").data ∧
      ('a' = '-' ∨ 'a' = '_' ∨ (97 ≤ 'a'.toNat ∧ 'a'.toNat ≤ 122) ∨
        (48 ≤ 'a'.toNat ∧ 'a'.toNat ≤ 57)) :=
  ⟨by decide, c10_anchor_charset "A b!" 'a' (by decide)⟩

theorem startsWithL_nil (cs : List Char) : startsWithL cs [] = true := by
  cases cs <;> rfl

theorem startsWithL_append (pat rest : List Char) :
    startsWithL (pat ++ rest) pat = true := by
  induction pat with
  | nil => exact startsWithL_nil rest
  | cons c cs ih => simp [startsWithL, ih]

theorem tokenTest_pos (t : String) (tail : List Char) (h : hasAlertTail tail = true) :
    tokenTest t (("<p>[!" ++ t ++ "]").data ++ tail) = some t := by
  have h1 : startsWithL (("<p>[!" ++ t ++ "]").data ++ tail)
      (("<p>[!" ++ t ++ "]").data) = true := startsWithL_append _ _
  have h2 : (("<p>[!" ++ t ++ "]").data ++ tail).drop
      (("<p>[!" ++ t ++ "]").data).length = tail := List.drop_left _ _
  show (if (startsWithL (("<p>[!" ++ t ++ "]").data ++ tail) (("<p>[!" ++ t ++ "]").data) &&
        hasAlertTail ((("<p>[!" ++ t ++ "]").data ++ tail).drop
          (("<p>[!" ++ t ++ "]").data).length)) = true
      then some t else none) = some t
  rw [h1, h2, h]
  rfl

theorem tokenTest_neg (t : String) (cs : List Char)
    (h : startsWithL cs ("<p>[!" ++ t ++ "]").data = false) : tokenTest t cs = none := by
  show (if (startsWithL cs ("<p>[!" ++ t ++ "]").data &&
        hasAlertTail (cs.drop (("<p>[!" ++ t ++ "]").data).length)) = true
      then some t else none) = none
  rw [h]
  rfl

theorem tokenTest_some (t r : String) (cs : List Char) (h : tokenTest t cs = some r) :
    r = t ∧ startsWithL cs ("<p>[!" ++ t ++ "]").data = true := by
  simp only [tokenTest] at h
  split at h
  · cases h
    rename_i hc
    rw [Bool.and_eq_true] at hc
    exact ⟨rfl, hc.1⟩
  · cases h

theorem swl_p5_false (a : Char) (as : List Char) (b : Char) (bs : List Char)
    (hab : (a == b) = false) :
    startsWithL ('<' :: 'p' :: '>' :: '[' :: '!' :: a :: as)
      ('<' :: 'p' :: '>' :: '[' :: '!' :: b :: bs) = false := by
  simp [startsWithL, hab]

theorem alertMatchL_note (tail : List Char) (h : hasAlertTail tail = true) :
    alertMatchL ("<p>[!NOTE]".data ++ tail) = some "NOTE" := by
  have hN : tokenTest "NOTE" ("<p>[!NOTE]".data ++ tail) = some "NOTE" :=
    tokenTest_pos "NOTE" tail h
  unfold alertMatchL
  rw [hN]

theorem alertMatchL_tip (tail : List Char) (h : hasAlertTail tail = true) :
    alertMatchL ("<p>[!TIP]".data ++ tail) = some "TIP" := by
  have hN : tokenTest "NOTE" ("<p>[!TIP]".data ++ tail) = none :=
    tokenTest_neg _ _ (swl_p5_false 'T' _ 'N' _ (by decide))
  have hT : tokenTest "TIP" ("<p>[!TIP]".data ++ tail) = some "TIP" :=
    tokenTest_pos "TIP" tail h
  unfold alertMatchL
  rw [hN, hT]

theorem alertMatchL_important (tail : List Char) (h : hasAlertTail tail = true) :
    alertMatchL ("<p>[!IMPORTANT]".data ++ tail) = some "IMPORTANT" := by
  have hN : tokenTest "NOTE" ("<p>[!IMPORTANT]".data ++ tail) = none :=
    tokenTest_neg _ _ (swl_p5_false 'I' _ 'N' _ (by decide))
  have hT : tokenTest "TIP" ("<p>[!IMPORTANT]".data ++ tail) = none :=
    tokenTest_neg _ _ (swl_p5_false 'I' _ 'T' _ (by decide))
  have hI : tokenTest "IMPORTANT" ("<p>[!IMPORTANT]".data ++ tail) = some "IMPORTANT" :=
    tokenTest_pos "IMPORTANT" tail h
  unfold alertMatchL
  rw [hN, hT, hI]

theorem alertMatchL_warning (tail : List Char) (h : hasAlertTail tail = true) :
    alertMatchL ("<p>[!WARNING]".data ++ tail) = some "WARNING" := by
  have hN : tokenTest "NOTE" ("<p>[!WARNING]".data ++ tail) = none :=
    tokenTest_neg _ _ (swl_p5_false 'W' _ 'N' _ (by decide))
  have hT : tokenTest "TIP" ("<p>[!WARNING]".data ++ tail) = none :=
    tokenTest_neg _ _ (swl_p5_false 'W' _ 'T' _ (by decide))
  have hI : tokenTest "IMPORTANT" ("<p>[!WARNING]".data ++ tail) = none :=
    tokenTest_neg _ _ (swl_p5_false 'W' _ 'I' _ (by decide))
  have hW : tokenTest "WARNING" ("<p>[!WARNING]".data ++ tail) = some "WARNING" :=
    tokenTest_pos "WARNING" tail h
  unfold alertMatchL
  rw [hN, hT, hI, hW]

theorem alertMatchL_caution (tail : List Char) (h : hasAlertTail tail = true) :
    alertMatchL ("<p>[!CAUTION]".data ++ tail) = some "CAUTION" := by
  have hN : tokenTest "NOTE" ("<p>[!CAUTION]".data ++ tail) = none :=
    tokenTest_neg _ _ (swl_p5_false 'C' _ 'N' _ (by decide))
  have hT : tokenTest "TIP" ("<p>[!CAUTION]".data ++ tail) = none :=
    tokenTest_neg _ _ (swl_p5_false 'C' _ 'T' _ (by decide))
  have hI : tokenTest "IMPORTANT" ("<p>[!CAUTION]".data ++ tail) = none :=
    tokenTest_neg _ _ (swl_p5_false 'C' _ 'I' _ (by decide))
  have hW : tokenTest "WARNING" ("<p>[!CAUTION]".data ++ tail) = none :=
    tokenTest_neg _ _ (swl_p5_false 'C' _ 'W' _ (by decide))
  have hC : tokenTest "CAUTION" ("<p>[!CAUTION]".data ++ tail) = some "CAUTION" :=
    tokenTest_pos "CAUTION" tail h
  unfold alertMatchL
  rw [hN, hT, hI, hW, hC]

theorem alertMatchL_sound (cs : List Char) (t : String) (h : alertMatchL cs = some t) :
    t ∈ alertTokens ∧ startsWithL cs ("<p>[!" ++ t ++ "]").data = true := by
  unfold alertMatchL at h
  cases hN : tokenTest "NOTE" cs with
  | some r =>
    simp only [hN] at h
    obtain ⟨hrt, hsw⟩ := tokenTest_some _ _ _ hN
    cases h; subst hrt
    exact ⟨by decide, hsw⟩
  | none =>
    simp only [hN] at h
    cases hT : tokenTest "TIP" cs with
    | some r =>
      simp only [hT] at h
      obtain ⟨hrt, hsw⟩ := tokenTest_some _ _ _ hT
      cases h; subst hrt
      exact ⟨by decide, hsw⟩
    | none =>
      simp only [hT] at h
      cases hI : tokenTest "IMPORTANT" cs with
      | some r =>
        simp only [hI] at h
        obtain ⟨hrt, hsw⟩ := tokenTest_some _ _ _ hI
        cases h; subst hrt
        exact ⟨by decide, hsw⟩
      | none =>
        simp only [hI] at h
        cases hW : tokenTest "WARNING" cs with
        | some r =>
          simp only [hW] at h
          obtain ⟨hrt, hsw⟩ := tokenTest_some _ _ _ hW
          cases h; subst hrt
          exact ⟨by decide, hsw⟩
        | none =>
          simp only [hW] at h
          obtain ⟨hrt, hsw⟩ := tokenTest_some _ _ _ h
          subst hrt
          exact ⟨by decide, hsw⟩

set_option maxRecDepth 40000 in
/-- C1: at the spec's own admonition test input the interceptor does emit a
callout titled `TIP` whose body contains `More text`, but the body still
contains the `[!TIP]` marker paragraph: the strip regex
`/^<p>\[!.*?\]\s*<\/p>/` demands `</p>` right after the token, so the first
paragraph is not stripped when trailing text follows the token (it is
stripped only in the trailing-text-free case, shown last). -/
theorem c1_callout_keeps_marker :
    alertMatch "<p>[!TIP] Remember this</p><p>More text</p>" = some "TIP" ∧
    stripFirstAlertP "<p>[!TIP] Remember this</p><p>More text</p>" =
      "<p>[!TIP] Remember this</p><p>More text</p>" ∧
    containsSub (renderBlockquote "<p>[!TIP] Remember this</p><p>More text</p>")
      "More text" = true ∧
    containsSub (renderBlockquote "<p>[!TIP] Remember this</p><p>More text</p>")
      "[!TIP]" = true ∧
    stripFirstAlertP "<p>[!TIP]</p><p>More text</p>" = "<p>More text</p>" :=
  ⟨by decide, by decide, by decide, by decide, by decide⟩

/-- C2 counterexample: the lowercase token `[!note]` is not detected — the
blockquote is emitted as a plain blockquote — while the uppercase `[!NOTE]`
form is: detection is not case-insensitive. -/
theorem c2_counterexample :
    alertMatch "<p>[!note] x</p>" = none ∧
    renderBlockquote "<p>[!note] x</p>" = "<blockquote><p>[!note] x</p></blockquote>" ∧
    alertMatch "<p>[!NOTE] x</p>" = some "NOTE" :=
  ⟨by decide, by decide, by decide⟩

/-- C2 amended: admonition detection is case-sensitive.  A blockquote whose
rendered first paragraph starts with `[!T]` for `T` exactly one of the five
uppercase tokens (any trailing text on the line allowed, via `hasAlertTail`)
is detected as a callout, and conversely every detected content begins with
the exact uppercase `<p>[!T]` pattern. -/
theorem c2_amended_case_sensitive :
    (∀ tail : String, hasAlertTail tail.data = true →
      alertMatch ("<p>[!NOTE]" ++ tail) = some "NOTE" ∧
      alertMatch ("<p>[!TIP]" ++ tail) = some "TIP" ∧
      alertMatch ("<p>[!IMPORTANT]" ++ tail) = some "IMPORTANT" ∧
      alertMatch ("<p>[!WARNING]" ++ tail) = some "WARNING" ∧
      alertMatch ("<p>[!CAUTION]" ++ tail) = some "CAUTION") ∧
    (∀ (content : String) (t : String), alertMatch content = some t →
      t ∈ alertTokens ∧ startsWithL content.data ("<p>[!" ++ t ++ "]").data = true) := by
  constructor
  · intro tail h
    exact ⟨alertMatchL_note tail.data h, alertMatchL_tip tail.data h,
      alertMatchL_important tail.data h, alertMatchL_warning tail.data h,
      alertMatchL_caution tail.data h⟩
  · intro content t h
    exact alertMatchL_sound content.data t h

/-- Witness for C2's amended statement at a concrete trailing text. -/
theorem c2_amended_case_sensitive_witness :
    hasAlertTail (" x</p>" : String).data = true ∧
      (alertMatch ("<p>[!NOTE]" ++ " x</p>") = some "NOTE" ∧
        alertMatch ("<p>[!TIP]" ++ " x</p>") = some "TIP" ∧
        alertMatch ("<p>[!IMPORTANT]" ++ " x</p>") = some "IMPORTANT" ∧
        alertMatch ("<p>[!WARNING]" ++ " x</p>") = some "WARNING" ∧
        alertMatch ("<p>[!CAUTION]" ++ " x</p>") = some "CAUTION") :=
  ⟨by decide, c2_amended_case_sensitive.1 " x</p>" (by decide)⟩

theorem jsSplitWs_ne_nil (cs : List Char) : jsSplitWs cs ≠ [] := by
  induction cs with
  | nil => simp [jsSplitWs]
  | cons c cs ih =>
    simp only [jsSplitWs]
    split
    · split
      · simp
      · split
        · exact ih
        · simp
    · split
      · simp
      · simp

theorem jsSplitWs_cons_word (c : Char) (cs : List Char) (h : c.isWhitespace = false) :
    (jsSplitWs (c :: cs)).length = (jsSplitWs cs).length := by
  simp only [jsSplitWs, h, Bool.false_eq_true, if_false]
  cases hj : jsSplitWs cs with
  | nil => exact absurd hj (jsSplitWs_ne_nil cs)
  | cons w ws => simp

theorem jsSplitWs_drop_word (cs : List Char) :
    (jsSplitWs cs).length =
      (jsSplitWs (cs.dropWhile fun d => !d.isWhitespace)).length := by
  induction cs with
  | nil => rfl
  | cons c cs ih =>
    cases hw : c.isWhitespace
    · rw [List.dropWhile_cons_of_pos (by simp [hw]), jsSplitWs_cons_word c cs hw]
      exact ih
    · rw [List.dropWhile_cons_of_neg (by simp [hw])]

theorem jsSplitWs_cons_ws (c : Char) (cs : List Char) (h : c.isWhitespace = true) :
    (jsSplitWs (c :: cs)).length =
      1 + (jsSplitWs ((c :: cs).dropWhile Char.isWhitespace)).length := by
  induction cs generalizing c with
  | nil => simp [jsSplitWs, h, List.dropWhile]
  | cons d cs ih =>
    rw [List.dropWhile_cons_of_pos h]
    cases hd : d.isWhitespace
    · rw [List.dropWhile_cons_of_neg (by simp [hd])]
      rw [show jsSplitWs (c :: d :: cs) = [] :: jsSplitWs (d :: cs) by
            rw [jsSplitWs]
            simp [h, hd]]
      simp [Nat.add_comm]
    · rw [show jsSplitWs (c :: d :: cs) = jsSplitWs (d :: cs) by
            rw [jsSplitWs]
            simp [h, hd]]
      rw [ih d hd, List.dropWhile_cons_of_pos hd]

theorem wordCount_dropWhile_ws (cs : List Char) :
    wordCount (cs.dropWhile Char.isWhitespace) = wordCount cs := by
  induction cs with
  | nil => rfl
  | cons c cs ih =>
    cases hw : c.isWhitespace
    · rw [List.dropWhile_cons_of_neg (by simp [hw])]
    · rw [List.dropWhile_cons_of_pos hw, ih, wordCount]
      simp [hw]

theorem wordCount_all_ws (w : List Char) (h : ∀ c ∈ w, c.isWhitespace = true) :
    wordCount w = 0 := by
  induction w with
  | nil => simp [wordCount]
  | cons c cs ih =>
    rw [wordCount]
    simp only [h c (List.mem_cons_self c cs), if_true]
    exact ih fun d hd => h d (List.mem_cons_of_mem c hd)

theorem suffix_getLast? (l₁ l₂ : List Char) (h : l₁ <:+ l₂) (hne : l₁ ≠ []) :
    l₂.getLast? = l₁.getLast? := by
  obtain ⟨pre, rfl⟩ := h
  rw [List.getLast?_append]
  cases hl : l₁.getLast? with
  | none => exact absurd (List.getLast?_eq_none_iff.mp hl) hne
  | some a => rfl

theorem wordCount_append_ws :
    ∀ (n : Nat) (t : List Char), t.length ≤ n →
      ∀ w : List Char, (∀ c ∈ w, c.isWhitespace = true) →
        wordCount (t ++ w) = wordCount t := by
  intro n
  induction n with
  | zero =>
    intro t ht w hw
    have : t = [] := List.eq_nil_of_length_eq_zero (Nat.le_zero.mp ht)
    subst this
    simpa [wordCount] using wordCount_all_ws w hw
  | succ n ih =>
    intro t ht w hw
    match t with
    | [] => simpa [wordCount] using wordCount_all_ws w hw
    | c :: t' =>
      have hlen : t'.length ≤ n := by simp only [List.length_cons] at ht; omega
      cases hc : c.isWhitespace
      · -- a word character: peel the whole situation via dropWhile_append
        rw [List.cons_append, wordCount, wordCount]
        simp only [hc, Bool.false_eq_true, if_false]
        rw [List.dropWhile_append]
        cases hde : (t'.dropWhile fun d => !d.isWhitespace).isEmpty
        · simp only [hde, Bool.false_eq_true, if_false]
          have : (t'.dropWhile fun d => !d.isWhitespace).length ≤ n :=
            le_trans (List.Sublist.length_le (List.dropWhile_sublist _)) hlen
          rw [ih _ this w hw]
        · simp only [hde, if_true]
          have hwdrop : w.dropWhile (fun d => !d.isWhitespace) = w := by
            cases w with
            | nil => rfl
            | cons e w' =>
              exact List.dropWhile_cons_of_neg
                (by simp [hw e (List.mem_cons_self e w')])
          rw [hwdrop, wordCount_all_ws w hw,
            List.isEmpty_iff.mp hde, wordCount]
      · rw [List.cons_append, wordCount]
        simp only [hc, if_true]
        rw [ih _ hlen w hw, wordCount]
        simp [hc]

theorem jsSplitWs_eq_wordCount :
    ∀ (n : Nat) (cs : List Char), cs.length ≤ n → cs ≠ [] →
      (∀ c, cs.head? = some c → c.isWhitespace = false) →
      (∀ c, cs.getLast? = some c → c.isWhitespace = false) →
      (jsSplitWs cs).length = wordCount cs := by
  intro n
  induction n with
  | zero =>
    intro cs h hne _ _
    exact absurd (List.eq_nil_of_length_eq_zero (Nat.le_zero.mp h)) hne
  | succ n ih =>
    intro cs h hne hhead hlast
    match cs with
    | [] => exact absurd rfl hne
    | c :: cs' =>
      have hlen : cs'.length ≤ n := by simp only [List.length_cons] at h; omega
      have hw : c.isWhitespace = false := hhead c rfl
      rw [jsSplitWs_cons_word c cs' hw, jsSplitWs_drop_word cs', wordCount]
      simp only [hw, Bool.false_eq_true, if_false]
      cases hr : cs'.dropWhile fun d => !d.isWhitespace with
      | nil => simp [jsSplitWs, wordCount]
      | cons e r₂ =>
        have hsuffr : (e :: r₂) <:+ (c :: cs') := by
          rw [← hr]
          exact List.IsSuffix.trans (List.dropWhile_suffix _) (List.suffix_cons c cs')
        have he : e.isWhitespace = true := by
          have h5 := List.head?_dropWhile_not (fun d => !d.isWhitespace) cs'
          rw [hr] at h5
          simpa using h5
        rw [jsSplitWs_cons_ws e r₂ he, ← wordCount_dropWhile_ws (e :: r₂)]
        rw [List.dropWhile_cons_of_pos he]
        cases hr2 : r₂.dropWhile Char.isWhitespace with
        | nil =>
          exfalso
          have hall : ∀ x ∈ e :: r₂, x.isWhitespace = true := by
            intro x hx
            rcases List.mem_cons.mp hx with hx | hx
            · rw [hx]; exact he
            · exact List.dropWhile_eq_nil_iff.mp hr2 x hx
          have hal : (c :: cs').getLast? = (e :: r₂).getLast? :=
            suffix_getLast? _ _ hsuffr (by simp)
          obtain ⟨a, ha⟩ : ∃ a, (e :: r₂).getLast? = some a := by
            cases hg : (e :: r₂).getLast? with
            | none => exact absurd (List.getLast?_eq_none_iff.mp hg) (by simp)
            | some a => exact ⟨a, rfl⟩
          have haws : a.isWhitespace = true :=
            hall a (List.mem_of_mem_getLast? (by rw [ha]; rfl))
          have hafalse : a.isWhitespace = false := hlast a (by rw [hal, ha])
          rw [hafalse] at haws
          exact Bool.false_ne_true haws
        | cons f r₃ =>
          have hf : ∀ x, (f :: r₃).head? = some x → x.isWhitespace = false := by
            intro x hx
            have h6 := List.head?_dropWhile_not Char.isWhitespace r₂
            rw [hr2] at h6
            simp only [List.head?_cons, Option.some.injEq] at h6 hx
            rw [← hx]
            exact h6
          have hsuff2 : (f :: r₃) <:+ (c :: cs') := by
            rw [← hr2]
            exact List.IsSuffix.trans (List.dropWhile_suffix _)
              (List.IsSuffix.trans (List.suffix_cons e r₂) hsuffr)
          have hl : ∀ x, (f :: r₃).getLast? = some x → x.isWhitespace = false := by
            intro x hx
            exact hlast x (by rw [suffix_getLast? _ _ hsuff2 (by simp), hx])
          have hlen2 : (f :: r₃).length ≤ n := by
            have l1 : (f :: r₃).length ≤ r₂.length := by
              rw [← hr2]; exact List.Sublist.length_le (List.dropWhile_sublist _)
            have l2 : (e :: r₂).length ≤ cs'.length := by
              rw [← hr]; exact List.Sublist.length_le (List.dropWhile_sublist _)
            simp only [List.length_cons] at l1 l2 ⊢
            omega
          rw [ih (f :: r₃) hlen2 (by simp) hf hl]

theorem trimL_head_ws (cs : List Char) :
    ∀ c, (trimL cs).head? = some c → c.isWhitespace = false := by
  intro c hc
  unfold trimL at hc
  rw [List.head?_reverse] at hc
  have hu : (cs.dropWhile Char.isWhitespace).reverse.dropWhile Char.isWhitespace ≠ [] := by
    intro h0
    rw [h0] at hc
    exact nomatch hc
  have h1 : ((cs.dropWhile Char.isWhitespace).reverse).getLast? = some c := by
    rw [suffix_getLast? _ _ (List.dropWhile_suffix _) hu]
    exact hc
  rw [List.getLast?_reverse] at h1
  have h2 := List.head?_dropWhile_not Char.isWhitespace cs
  rw [h1] at h2
  simpa using h2

theorem trimL_last_ws (cs : List Char) :
    ∀ c, (trimL cs).getLast? = some c → c.isWhitespace = false := by
  intro c hc
  unfold trimL at hc
  rw [List.getLast?_reverse] at hc
  have h2 := List.head?_dropWhile_not Char.isWhitespace (cs.dropWhile Char.isWhitespace).reverse
  rw [hc] at h2
  simpa using h2

theorem trimL_decomp (cs : List Char) :
    ∃ w, cs.dropWhile Char.isWhitespace = trimL cs ++ w ∧
      ∀ c ∈ w, c.isWhitespace = true := by
  refine ⟨((cs.dropWhile Char.isWhitespace).reverse.takeWhile Char.isWhitespace).reverse,
    ?_, ?_⟩
  · have key : ∀ l : List Char,
        l = (l.reverse.dropWhile Char.isWhitespace).reverse ++
          (l.reverse.takeWhile Char.isWhitespace).reverse := by
      intro l
      rw [← List.reverse_append, List.takeWhile_append_dropWhile, List.reverse_reverse]
    exact key _
  · intro c hcw
    rw [List.mem_reverse] at hcw
    exact List.mem_takeWhile_imp hcw

set_option maxRecDepth 100000 in
/-- C6: for every body string, the reading time equals the number of
whitespace-separated words divided by 200 and rounded up, with minimum
result 1; a body of exactly 200 words yields 1, a body of 401 words yields 3,
and an empty body yields 1. -/
theorem c6_reading_time :
    (∀ content : String,
      getReadingTime content = max 1 ((wordCount content.data + 199) / 200)) ∧
    getReadingTime (String.intercalate " " (List.replicate 200 "w")) = 1 ∧
    getReadingTime (String.intercalate " " (List.replicate 401 "w")) = 3 ∧
    getReadingTime "" = 1 := by
  refine ⟨?_, by decide, by decide, by decide⟩
  intro content
  obtain ⟨w, hdec, hws⟩ := trimL_decomp content.data
  have hwc : wordCount content.data = wordCount (trimL content.data) := by
    rw [← wordCount_dropWhile_ws content.data, hdec]
    exact wordCount_append_ws (trimL content.data).length (trimL content.data) le_rfl w hws
  show ((jsSplitWs (trimL content.data)).length + 199) / 200 =
    max 1 ((wordCount content.data + 199) / 200)
  by_cases hne : trimL content.data = []
  · have h0 : wordCount content.data = 0 := by
      rw [hwc, hne]
      simp [wordCount]
    rw [hne, h0]
    decide
  · have hmain := jsSplitWs_eq_wordCount (trimL content.data).length
      (trimL content.data) le_rfl hne (trimL_head_ws content.data)
      (trimL_last_ws content.data)
    have hge : 1 ≤ wordCount (trimL content.data) := by
      cases ht : trimL content.data with
      | nil => exact absurd ht hne
      | cons c t' =>
        have hc : c.isWhitespace = false :=
          trimL_head_ws content.data c (by rw [ht]; rfl)
        rw [wordCount]
        simp [hc]
    have hb : 1 ≤ (wordCount content.data + 199) / 200 := by
      rw [hwc]
      omega
    rw [hmain, ← hwc]
    omega

theorem replaceFirst_at_end (pat : List Char) (hne : pat ≠ []) :
    ∀ pre : List Char,
      (∀ i, i < pre.length → startsWithL ((pre ++ pat).drop i) pat = false) →
      replaceFirstL (pre ++ pat) pat = pre := by
  intro pre
  induction pre with
  | nil =>
    intro _
    cases pat with
    | nil => exact absurd rfl hne
    | cons p ps =>
      rw [List.nil_append, replaceFirstL]
      rw [show startsWithL (p :: ps) (p :: ps) = true by
            have h9 := startsWithL_append (p :: ps) []
            simpa using h9]
      simp
  | cons c t ih =>
    intro h
    have h0 : startsWithL ((c :: t) ++ pat) pat = false := by
      have h9 := h 0 (by simp)
      simpa using h9
    rw [List.cons_append] at h0 ⊢
    rw [replaceFirstL, h0]
    simp only [Bool.false_eq_true, if_false, List.cons.injEq, true_and]
    refine ih fun i hi => ?_
    have h9 := h (i + 1) (by simp only [List.length_cons]; omega)
    rw [List.cons_append, List.drop_succ_cons] at h9
    exact h9

/-- C9 counterexample: for a filename containing `.md` before the extension,
the code removes the first occurrence, not the trailing extension, so the
resulting slug still ends in `.md`. -/
theorem c9_counterexample :
    ("a.md-guide.md" : String).data.drop 10 = ('.' :: 'm' :: 'd' :: []) ∧
    slugOf "a.md-guide.md" = "a-guide.md" ∧
    ("a-guide.md" : String) ≠ "a.md-guide" :=
  ⟨by decide, by decide, by decide⟩

/-- C9 amended: the slug is the filename with the first occurrence of `.md`
removed; when the only occurrence of `.md` is the trailing extension (no
occurrence starts before the stem's end), this strips exactly the extension,
but an earlier `.md` is removed instead, leaving the trailing `.md`. -/
theorem c9_slug_first_occurrence :
    (∀ s : String,
      ((List.range s.data.length).all fun i =>
        !startsWithL ((s.data ++ ('.' :: 'm' :: 'd' :: [])).drop i)
          ('.' :: 'm' :: 'd' :: [])) = true →
      slugOf (s ++ ".md") = s) ∧
    slugOf "a.md-guide.md" = "a-guide.md" := by
  constructor
  · intro s h
    have h' : ∀ i, i < s.data.length →
        startsWithL ((s.data ++ ('.' :: 'm' :: 'd' :: [])).drop i)
          ('.' :: 'm' :: 'd' :: []) = false := by
      intro i hi
      have h9 := List.all_eq_true.mp h i (List.mem_range.mpr hi)
      simpa using h9
    have hrepl : replaceFirstL (s.data ++ ('.' :: 'm' :: 'd' :: []))
        ('.' :: 'm' :: 'd' :: []) = s.data :=
      replaceFirst_at_end _ (by simp) s.data h'
    show String.mk (replaceFirstL ((s ++ ".md").data) ((".md" : String).data)) = s
    calc String.mk (replaceFirstL ((s ++ ".md").data) ((".md" : String).data))
        = String.mk s.data := congrArg String.mk hrepl
      _ = s := rfl
  · decide

/-- Witness for C9's amended statement: a stem with no internal `.md`. -/
theorem c9_slug_first_occurrence_witness :
    ((List.range ("hello" : String).data.length).all fun i =>
      !startsWithL ((("hello" : String).data ++ ('.' :: 'm' :: 'd' :: [])).drop i)
        ('.' :: 'm' :: 'd' :: [])) = true ∧
    slugOf ("hello" ++ ".md") = "hello" :=
  ⟨by decide, c9_slug_first_occurrence.1 "hello" (by decide)⟩

/-- C3 counterexample: the code replaces each tag with a space rather than
deleting it, so on `<p>Hello</p>` the snippet is `" Hello "`, not the
`"Hello"` the claim's deletion semantics would give. -/
theorem c3_counterexample :
    (searchIndexEntry
      ⟨"s", "t", "d", "a", 0, [], none, "<p>Hello</p>", [], 1⟩).content = " Hello " ∧
    String.mk ((deleteTags ("<p>Hello</p>" : String).data).take 300) = "Hello" ∧
    (" Hello " : String) ≠ "Hello" :=
  ⟨by decide, by decide, by decide⟩

theorem stripTagsM_true_skip (span : List Char) (hspan : ∀ c ∈ span, (c == '>') = false) :
    ∀ rest : List Char, stripTagsM true (span ++ '>' :: rest) = stripTagsM false rest := by
  induction span with
  | nil => intro rest; simp [stripTagsM]
  | cons c cs ih =>
    intro rest
    rw [List.cons_append, stripTagsM]
    rw [hspan c (List.mem_cons_self c cs)]
    exact ih (fun d hd => hspan d (List.mem_cons_of_mem c hd)) rest

theorem stripTagsM_true_all (span : List Char) (hspan : ∀ c ∈ span, (c == '>') = false) :
    stripTagsM true span = [] := by
  induction span with
  | nil => rfl
  | cons c cs ih =>
    rw [stripTagsM, hspan c (List.mem_cons_self c cs)]
    exact ih fun d hd => hspan d (List.mem_cons_of_mem c hd)

theorem stripTags_text (t : List Char) (ht : ∀ c ∈ t, (c == '<') = false) :
    stripTags t = t := by
  induction t with
  | nil => rfl
  | cons c cs ih =>
    show stripTagsM false (c :: cs) = c :: cs
    rw [stripTagsM, ht c (List.mem_cons_self c cs)]
    exact congrArg (c :: ·) (ih fun d hd => ht d (List.mem_cons_of_mem c hd))

theorem stripTags_tag_span (t span rest : List Char)
    (ht : ∀ c ∈ t, (c == '<') = false) (hspan : ∀ c ∈ span, (c == '>') = false) :
    stripTags (t ++ '<' :: span ++ '>' :: rest) = t ++ ' ' :: stripTags rest := by
  induction t with
  | nil =>
    show stripTagsM false ('<' :: (span ++ '>' :: rest)) = ' ' :: stripTags rest
    rw [stripTagsM]
    simp only [beq_self_eq_true, if_true]
    exact congrArg (' ' :: ·) (stripTagsM_true_skip span hspan rest)
  | cons c cs ih =>
    rw [List.cons_append]
    show stripTagsM false (c :: (cs ++ '<' :: span ++ '>' :: rest)) = _
    rw [stripTagsM, ht c (List.mem_cons_self c cs)]
    exact congrArg (c :: ·) (ih fun d hd => ht d (List.mem_cons_of_mem c hd))

/-- C3 amended: the snippet is the rendered HTML with every `<...>` span
replaced by a single space (an unclosed trailing `<...` span also becomes one
space), then cut at a raw count of 300 characters — exactly 300 characters
when the stripped text is at least that long, possibly splitting a word. -/
theorem c3_snippet_space_and_cut :
    (∀ p : Post, (searchIndexEntry p).content =
      String.mk ((stripTags p.htmlContent.data).take 300)) ∧
    (∀ p : Post, 300 ≤ (stripTags p.htmlContent.data).length →
      (searchIndexEntry p).content.length = 300) ∧
    (∀ t span rest : List Char,
      (∀ c ∈ t, (c == '<') = false) → (∀ c ∈ span, (c == '>') = false) →
      stripTags (t ++ '<' :: span ++ '>' :: rest) = t ++ ' ' :: stripTags rest) ∧
    (∀ t span : List Char,
      (∀ c ∈ t, (c == '<') = false) → (∀ c ∈ span, (c == '>') = false) →
      stripTags (t ++ '<' :: span) = t ++ [' ']) ∧
    (∀ t : List Char, (∀ c ∈ t, (c == '<') = false) → stripTags t = t) := by
  refine ⟨fun p => rfl, ?_, stripTags_tag_span, ?_, stripTags_text⟩
  · intro p h
    show (String.mk ((stripTags p.htmlContent.data).take 300)).length = 300
    simp [String.length, List.length_take]
    omega
  · intro t span ht hspan
    induction t with
    | nil =>
      show stripTagsM false ('<' :: span) = [' ']
      rw [stripTagsM]
      simp only [beq_self_eq_true, if_true]
      rw [stripTagsM_true_all span hspan]
    | cons c cs ih =>
      rw [List.cons_append]
      show stripTagsM false (c :: (cs ++ '<' :: span)) = _
      rw [stripTagsM, ht c (List.mem_cons_self c cs)]
      exact congrArg (c :: ·) (ih fun d hd => ht d (List.mem_cons_of_mem c hd))

set_option maxRecDepth 40000 in
/-- Witness for C3's amended statement: a post whose stripped content is 300
copies of `a`, and a concrete tag-span replacement. -/
theorem c3_snippet_space_and_cut_witness :
    300 ≤ (stripTags (String.mk (List.replicate 300 'a')).data).length ∧
    (searchIndexEntry ⟨"s", "t", "d", "a", 0, [], none,
      String.mk (List.replicate 300 'a'), [], 1⟩).content.length = 300 :=
  ⟨by decide,
    c3_snippet_space_and_cut.2.1
      ⟨"s", "t", "d", "a", 0, [], none, String.mk (List.replicate 300 'a'), [], 1⟩
      (by decide)⟩

theorem filter_contains_length (l m : List String) (hl : l.Nodup) :
    (l.filter fun a => m.contains a).length = (l.toFinset ∩ m.toFinset).card := by
  have h1 : (l.filter fun a => m.contains a).Nodup := hl.filter _
  rw [← List.toFinset_card_of_nodup h1]
  congr 1
  ext a
  simp only [List.toFinset_filter, Finset.mem_filter, List.mem_toFinset,
    Finset.mem_inter]
  constructor
  · rintro ⟨ha, hc⟩
    exact ⟨ha, List.elem_iff.mp hc⟩
  · rintro ⟨ha, hm⟩
    exact ⟨ha, List.elem_iff.mpr hm⟩

theorem matchCount_eq_spec (post p : Post) (h1 : post.tags.Nodup)
    (h2 : p.tags.Nodup) : matchCount post p = matchCountSpec post p := by
  unfold matchCount matchCountSpec
  rw [filter_contains_length _ _ h2, filter_contains_length _ _ h1,
    Finset.inter_comm]

theorem mem_insertDesc {y x : Post × Nat} {s : List (Post × Nat)}
    (h : y ∈ insertDesc x s) : y = x ∨ y ∈ s := by
  induction s with
  | nil => simpa [insertDesc] using h
  | cons z zs ih =>
    rw [insertDesc] at h
    by_cases hc : x.2 < z.2
    · rw [if_pos hc] at h
      rcases List.mem_cons.mp h with h | h
      · exact Or.inr (List.mem_cons.mpr (Or.inl h))
      · rcases ih h with h | h
        · exact Or.inl h
        · exact Or.inr (List.mem_cons_of_mem z h)
    · rw [if_neg hc] at h
      rcases List.mem_cons.mp h with h | h
      · exact Or.inl h
      · exact Or.inr h

theorem insertDesc_perm (x : Post × Nat) (s : List (Post × Nat)) :
    List.Perm (insertDesc x s) (x :: s) := by
  induction s with
  | nil => exact List.Perm.refl _
  | cons z zs ih =>
    rw [insertDesc]
    by_cases hc : x.2 < z.2
    · rw [if_pos hc]
      exact List.Perm.trans (List.Perm.cons z ih) (List.Perm.swap x z zs)
    · rw [if_neg hc]

theorem sortDesc_perm (l : List (Post × Nat)) : List.Perm (sortDesc l) l := by
  induction l with
  | nil => exact List.Perm.refl _
  | cons a l ih =>
    show List.Perm (insertDesc a (sortDesc l)) (a :: l)
    exact List.Perm.trans (insertDesc_perm _ _) (List.Perm.cons a ih)

theorem insertDesc_sorted (x : Post × Nat) (s : List (Post × Nat))
    (hs : s.Pairwise fun a b => b.2 ≤ a.2) :
    (insertDesc x s).Pairwise fun a b => b.2 ≤ a.2 := by
  induction s with
  | nil => simp [insertDesc]
  | cons z zs ih =>
    rw [List.pairwise_cons] at hs
    obtain ⟨hz, hzs⟩ := hs
    rw [insertDesc]
    by_cases hc : x.2 < z.2
    · rw [if_pos hc, List.pairwise_cons]
      refine ⟨fun y hy => ?_, ih hzs⟩
      rcases mem_insertDesc hy with h | h
      · rw [h]; omega
      · exact hz y h
    · rw [if_neg hc, List.pairwise_cons]
      refine ⟨fun y hy => ?_, List.pairwise_cons.mpr ⟨hz, hzs⟩⟩
      rcases List.mem_cons.mp hy with h | h
      · rw [h]; omega
      · have := hz y h; omega

theorem sortDesc_sorted (l : List (Post × Nat)) :
    (sortDesc l).Pairwise fun a b => b.2 ≤ a.2 := by
  induction l with
  | nil => simp [sortDesc]
  | cons a l ih => exact insertDesc_sorted a (sortDesc l) ih

theorem insertDesc_filter (x : Post × Nat) (s : List (Post × Nat)) (k : Nat) :
    (insertDesc x s).filter (fun y => decide (y.2 = k)) =
      if x.2 = k then x :: s.filter (fun y => decide (y.2 = k))
      else s.filter (fun y => decide (y.2 = k)) := by
  induction s with
  | nil => by_cases hx : x.2 = k <;> simp [insertDesc, List.filter, hx]
  | cons z zs ih =>
    rw [insertDesc]
    by_cases hc : x.2 < z.2
    · rw [if_pos hc, List.filter_cons, List.filter_cons]
      by_cases hz : z.2 = k
      · have hx : ¬x.2 = k := by omega
        simp [hz, hx, ih]
      · simp [hz, ih]
    · rw [if_neg hc]
      by_cases hx : x.2 = k <;> simp [List.filter_cons, hx]

theorem sortDesc_filter (l : List (Post × Nat)) (k : Nat) :
    (sortDesc l).filter (fun y => decide (y.2 = k)) =
      l.filter (fun y => decide (y.2 = k)) := by
  induction l with
  | nil => rfl
  | cons a l ih =>
    show (insertDesc a (sortDesc l)).filter _ = _
    rw [insertDesc_filter, List.filter_cons]
    by_cases ha : a.2 = k <;> simp [ha, ih]

theorem relatedCandidates_eq_spec (post : Post) (posts : List Post)
    (h1 : post.tags.Nodup) (h2 : ∀ p ∈ posts, p.tags.Nodup) :
    relatedCandidates post posts = relatedCandidatesSpec post posts := by
  unfold relatedCandidates relatedCandidatesSpec
  congr 1
  apply List.map_congr_left
  intro p hp
  rw [matchCount_eq_spec post p h1 (h2 p (List.mem_of_mem_filter hp))]

theorem mem_relatedCandidates {post : Post} {posts : List Post}
    {x : Post × Nat} (h : x ∈ relatedCandidates post posts) :
    x.1 ∈ posts ∧ x.1.slug ≠ post.slug ∧ x.2 = matchCount post x.1 ∧ 0 < x.2 := by
  unfold relatedCandidates at h
  rw [List.mem_filter] at h
  obtain ⟨hm, hpos⟩ := h
  rw [List.mem_map] at hm
  obtain ⟨p, hp, rfl⟩ := hm
  rw [List.mem_filter] at hp
  obtain ⟨hmem, hslug⟩ := hp
  refine ⟨hmem, by simpa using hslug, rfl, by simpa using hpos⟩

/-- C5: for a target post and a date-descending corpus with set-semantic
(duplicate-free) tags, the related list equals the spec's description — the
other posts with `|target.tags ∩ other.tags| > 0`, stably sorted descending
by match count with ties in corpus order, truncated to 3 — and in particular
it has `min 3 #candidates` entries, descending match counts, only genuinely
overlapping other posts, tie-stability over the candidate order, and is empty
when nothing overlaps. -/
theorem c5_related_ranking (post : Post) (posts : List Post)
    (h1 : post.tags.Nodup) (h2 : ∀ p ∈ posts, p.tags.Nodup)
    (_hdd : sortedByDateDesc posts = true) :
    related post posts = relatedSpec post posts ∧
    (related post posts).length = min 3 (relatedCandidates post posts).length ∧
    ((related post posts).map (matchCount post)).Pairwise (fun a b => b ≤ a) ∧
    (∀ p ∈ related post posts,
      p ∈ posts ∧ p.slug ≠ post.slug ∧ 0 < matchCount post p) ∧
    (∀ k, (sortDesc (relatedCandidates post posts)).filter
        (fun y => decide (y.2 = k)) =
      (relatedCandidates post posts).filter fun y => decide (y.2 = k)) ∧
    ((∀ p ∈ posts, matchCount post p = 0 ∨ p.slug = post.slug) →
      related post posts = []) := by
  refine ⟨?_, ?_, ?_, ?_, fun k => sortDesc_filter _ k, ?_⟩
  · unfold related relatedSpec
    rw [relatedCandidates_eq_spec post posts h1 h2]
  · unfold related
    rw [List.length_map, List.length_take, (sortDesc_perm _).length_eq]
  · have hs := sortDesc_sorted (relatedCandidates post posts)
    have hst : ((sortDesc (relatedCandidates post posts)).take 3).Pairwise
        (fun a b => b.2 ≤ a.2) := hs.sublist (List.take_sublist _ _)
    unfold related
    rw [List.pairwise_map, List.pairwise_map]
    refine hst.imp_of_mem ?_
    intro a b ha hb hab
    have ha2 := (mem_relatedCandidates
      ((sortDesc_perm _).mem_iff.mp (List.take_subset _ _ ha))).2.2.1
    have hb2 := (mem_relatedCandidates
      ((sortDesc_perm _).mem_iff.mp (List.take_subset _ _ hb))).2.2.1
    rw [← ha2, ← hb2]
    exact hab
  · intro p hp
    unfold related at hp
    rw [List.mem_map] at hp
    obtain ⟨x, hx, rfl⟩ := hp
    have hc := mem_relatedCandidates
      ((sortDesc_perm _).mem_iff.mp (List.take_subset _ _ hx))
    exact ⟨hc.1, hc.2.1, hc.2.2.1 ▸ hc.2.2.2⟩
  · intro hz
    have hnil : relatedCandidates post posts = [] := by
      unfold relatedCandidates
      rw [List.filter_eq_nil_iff]
      intro x hx
      rw [List.mem_map] at hx
      obtain ⟨p, hp, rfl⟩ := hx
      rw [List.mem_filter] at hp
      obtain ⟨hmem, hslug⟩ := hp
      rcases hz p hmem with h | h
      · simp [h]
      · simp only [decide_eq_true_eq] at hslug
        exact absurd h hslug
    unfold related
    rw [hnil]
    rfl

/-- Witness for C5 at the spec's own A/B/C example, including
`relatedOf(A) = [B]` and the tie-stability outcome `relatedOf(B) = [A, C]`. -/
theorem c5_related_ranking_witness :
    (postA.tags.Nodup ∧ (∀ p ∈ [postA, postB, postC], p.tags.Nodup) ∧
      sortedByDateDesc [postA, postB, postC] = true) ∧
    related postA [postA, postB, postC] = relatedSpec postA [postA, postB, postC] ∧
    related postA [postA, postB, postC] = [postB] ∧
    related postB [postA, postB, postC] = [postA, postC] :=
  ⟨⟨by decide, by decide, by decide⟩,
    (c5_related_ranking postA [postA, postB, postC]
      (by decide) (by decide) (by decide)).1,
    by decide, by decide⟩

/-- C4 counterexample: a document with no metadata header at all is compiled
silently with empty metadata (no error of any kind, let alone a
`FrontmatterParseError`), and even a malformed header — which does make the
frontmatter parser throw — still ends the run with completion status 0
because the top-level catch swallows the rejection. -/
theorem c4_counterexample :
    matterModel "just a body, no header" =
      Except.ok ⟨[], "just a body, no header"⟩ ∧
    buildDocs [("post.md", "just a body, no header")] =
      Except.ok [("post", ⟨[], "just a body, no header"⟩)] ∧
    buildDocs [("bad.md", "---\nnot wellformed\n---\nbody")] =
      Except.error "YAMLException: can not read a block mapping entry" ∧
    runBuild [("bad.md", "---\nnot wellformed\n---\nbody")] = 0 :=
  ⟨rfl, rfl, rfl, rfl⟩

/-- C4 amended: a missing metadata header is not a failure — the document is
compiled with empty metadata; a malformed header aborts the document loop
with the parser's exception; and the run's completion status is 0 in every
case, because `build().catch(console.error)` only logs the cause. -/
theorem c4_error_handling :
    (∀ raw : String, (splitLines raw.data).head? ≠ some fmDelim →
      matterModel raw = Except.ok ⟨[], raw⟩) ∧
    (∀ file raw : String, (splitLines raw.data).head? ≠ some fmDelim →
      buildDocs [(file, raw)] = Except.ok [(slugOf file, ⟨[], raw⟩)]) ∧
    (∀ docs : List (String × String), runBuild docs = 0) := by
  have hm : ∀ raw : String, (splitLines raw.data).head? ≠ some fmDelim →
      matterModel raw = Except.ok ⟨[], raw⟩ := by
    intro raw h
    cases hsp : splitLines raw.data with
    | nil => unfold matterModel; simp only [hsp]
    | cons first rest =>
      have hne : ¬ first = fmDelim := by
        intro heq
        exact h (by rw [hsp, heq]; rfl)
      unfold matterModel
      simp only [hsp, if_neg hne]
  refine ⟨hm, ?_, ?_⟩
  · intro file raw h
    show (match matterModel raw with
      | Except.error e => Except.error e
      | Except.ok fm =>
        match buildDocs [] with
        | Except.error e => Except.error e
        | Except.ok others => Except.ok ((slugOf file, fm) :: others)) =
      Except.ok [(slugOf file, ⟨[], raw⟩)]
    simp only [hm raw h]
    rfl
  · intro docs
    unfold runBuild
    cases buildDocs docs <;> rfl

/-- Witness for C4's amended statement at a concrete header-less document. -/
theorem c4_error_handling_witness :
    (splitLines ("hello body" : String).data).head? ≠ some fmDelim ∧
    matterModel "hello body" = Except.ok ⟨[], "hello body"⟩ ∧
    buildDocs [("a.md", "hello body")] =
      Except.ok [(slugOf "a.md", ⟨[], "hello body"⟩)] ∧
    runBuild [("a.md", "hello body")] = 0 :=
  ⟨by decide, c4_error_handling.1 "hello body" (by decide),
    c4_error_handling.2.1 "a.md" "hello body" (by decide),
    c4_error_handling.2.2 [("a.md", "hello body")]⟩

end MDBlog
